import Mathlib

/-!
Shallow embedding of the `observe-store` library (src/src/index.ts) and proofs
of the specification claims about it.

The embedding covers:
* patch paths and patches (`src/src/types.ts` / `PatchPath`, `Patch`),
* `ObservableStore.groupPatchesByField`, `extractSecondKeysFromPatches`,
* `ObservableStore.update` and its emission protocol,
* `get` / `getState` shallow-copy semantics over an explicit heap,
* the listener tables of the event router and the derived value-subscription
  handlers (`createSubscribeHandlers`, `createKeyedSubscribeHandlers`).

The event router itself lives in the external `radiate` package (not part of
this repository's sources); where a claim depends on its behavior it is
modelled from the spec, as noted on the corresponding definitions.
-/

namespace ObserveStore

/-- A path segment of a patch. `src/src/types.ts`:
`PatchPath = (string | number | symbol | object)[]`. Symbols and objects are
compared by identity; we give each an identity tag. -/
inductive Seg where
  | str (s : String)
  | num (n : Int)
  | sym (id : Nat)
  | obj (id : Nat)
deriving DecidableEq, Repr

/-- Patch operation kind: `add`, `replace` or `remove`. -/
inductive PatchOp where
  | add
  | replace
  | remove
deriving DecidableEq, Repr

/-- A single structural edit, as in `src/src/types.ts` (`Patch`):
`{path: PatchPath, op: PatchOp, value?: any}`. The payload value is irrelevant
to the routing logic; we model it as an optional integer. -/
structure Patch where
  path : List Seg
  op : PatchOp
  value : Option Int := none
deriving DecidableEq, Repr

/-- Association lookup (JS `Map.get` semantics for our insertion-ordered
association lists). -/
def alookup {α β : Type} [DecidableEq α] : List (α × β) → α → Option β
  | [], _ => none
  | (a, b) :: rest, k => if a = k then some b else alookup rest k

/-- Append a patch to the group stored at key `k`, creating the group at the
end of the map when absent: JS `Map` keeps insertion order, and `set` on an
existing key keeps its position. Models the `let group = m.get(k); if
(!group) { group = []; m.set(k, group); } group.push(patch)` idiom of
`groupPatchesByField`. -/
def groupPush (m : List (Seg × List Patch)) (k : Seg) (p : Patch) :
    List (Seg × List Patch) :=
  match m with
  | [] => [(k, [p])]
  | (k', ps) :: rest =>
    if k' = k then (k', ps ++ [p]) :: rest else (k', ps) :: groupPush rest k p

/-- The error message thrown by `groupPatchesByField` on an empty path
(`src/src/index.ts:480`). -/
def emptyPathError : String :=
  "This should never happen, we cannot set the root state in the mutate function"

/-- Loop of `ObservableStore.groupPatchesByField` (`src/src/index.ts:471`):
iterate the patches in order, throw on an empty path, push patches whose path
has length 1 or 2 into the `topLevel` map, and push every patch into the
`all` map, keyed by the first path segment. -/
def groupGo : List Patch → List (Seg × List Patch) → List (Seg × List Patch) →
    Except String (List (Seg × List Patch) × List (Seg × List Patch))
  | [], topLevel, all => .ok (topLevel, all)
  | p :: rest, topLevel, all =>
    match p.path with
    | [] => .error emptyPathError
    | fieldKey :: _ =>
      let topLevel' :=
        if p.path.length = 1 ∨ p.path.length = 2 then groupPush topLevel fieldKey p
        else topLevel
      groupGo rest topLevel' (groupPush all fieldKey p)

/-- `ObservableStore.groupPatchesByField` (`src/src/index.ts:471-507`):
returns `(topLevel, all)` grouped maps, or the protocol error when some patch
has an empty path. -/
def groupPatchesByField (patches : List Patch) :
    Except String (List (Seg × List Patch) × List (Seg × List Patch)) :=
  groupGo patches [] []

/-- Add a key to an insertion-ordered deduplicated list (JS `Set.add`). -/
def setAdd (s : List Seg) (k : Seg) : List Seg :=
  if k ∈ s then s else s ++ [k]

/-- `ObservableStore.extractSecondKeysFromPatches` (`src/src/index.ts:456-464`):
collect the distinct second path segments (`patch.path[1]` when
`patch.path.length > 1`) of the patches, in first-appearance order. -/
def extractSecondKeysFromPatches (patches : List Patch) : List Seg :=
  patches.foldl
    (fun s p => match p.path with
      | _ :: k :: _ => setAdd s k
      | _ => s) []

/-- JS string conversion of a field key as used in the template literal
`` `${fieldKey}:updated` ``. Top-level field keys are strings by the store's
type constraint (`T extends Record<string, unknown>`); the other branches are
never exercised by typed producers. -/
def segToString : Seg → String
  | .str s => s
  | .num n => toString n
  | .sym id => "Symbol(" ++ toString id ++ ")"
  | .obj _ => "[object Object]"

/-- Event name for a field (`src/src/index.ts:114`): `"<field>:updated"`. -/
def eventName (k : Seg) : String := segToString k ++ ":updated"

/-- One call the store makes into the event router during `update`. -/
inductive Emission where
  | plain (event : String) (patches : List Patch)
  | keyed (event : String) (key : Seg) (patches : List Patch)
deriving DecidableEq, Repr

/-- Emissions produced for one field group (`src/src/index.ts:113-127`):
the plain event always, then — only when the router reports keyed listeners
for that event — one keyed event per distinct second key. `hasKeyed` is the
router's `hasKeyedListeners` oracle (the router lives in the external
`radiate` package). -/
def emitForGroup (hasKeyed : String → Bool) (g : Seg × List Patch) :
    List Emission :=
  let ev := eventName g.1
  Emission.plain ev g.2 ::
    (if hasKeyed ev then
      (extractSecondKeysFromPatches g.2).map (fun k => Emission.keyed ev k g.2)
    else [])

/-- All emissions of one `update` call, per field group in order. -/
def emitAll (hasKeyed : String → Bool) (groups : List (Seg × List Patch)) :
    List Emission :=
  (groups.map (emitForGroup hasKeyed)).flatten

/-- `ObservableStore.update` (`src/src/index.ts:105-147`) with the mutation
function and the producer folded into `create`: run the producer, store the
new state, group the patches (which may throw), emit per group, and return
the full patch list. The result is `(stored state, emission trace, thrown
error or returned patches)`; on the protocol error the state has already been
replaced and no emission has happened. -/
def update {σ : Type} (hasKeyed : String → Bool) (create : σ → σ × List Patch)
    (state : σ) : σ × List Emission × Except String (List Patch) :=
  let res := create state
  match groupPatchesByField res.2 with
  | .error e => (res.1, [], .error e)
  | .ok g => (res.1, emitAll hasKeyed g.2, .ok res.2)

/-! ### Lemmas about the grouping loop -/

theorem alookup_eq_none_iff {α β : Type} [DecidableEq α] (m : List (α × β)) (k : α) :
    alookup m k = none ↔ k ∉ m.map Prod.fst := by
  induction m with
  | nil => simp [alookup]
  | cons hd tl ih =>
    obtain ⟨a, b⟩ := hd
    by_cases h : a = k
    · subst h; simp [alookup]
    · simp [alookup, h, ih, Ne.symm h]

theorem alookup_mem {α β : Type} [DecidableEq α] {m : List (α × β)} {k : α} {v : β}
    (h : alookup m k = some v) : (k, v) ∈ m := by
  induction m with
  | nil => simp [alookup] at h
  | cons hd tl ih =>
    obtain ⟨a, b⟩ := hd
    by_cases ha : a = k
    · subst ha
      simp [alookup] at h
      simp [h]
    · simp [alookup, ha] at h
      simp [ih h]

theorem alookup_of_mem {α β : Type} [DecidableEq α] {m : List (α × β)}
    (hn : (m.map Prod.fst).Nodup) {k : α} {v : β} (h : (k, v) ∈ m) :
    alookup m k = some v := by
  induction m with
  | nil => simp at h
  | cons hd tl ih =>
    obtain ⟨a, b⟩ := hd
    simp only [List.map_cons, List.nodup_cons] at hn
    rcases List.mem_cons.mp h with h1 | h1
    · obtain ⟨rfl, rfl⟩ := Prod.ext_iff.mp h1
      simp [alookup]
    · have hak : a ≠ k := by
        rintro rfl
        exact hn.1 (List.mem_map.mpr ⟨(a, v), h1, rfl⟩)
      simp [alookup, hak, ih hn.2 h1]

theorem groupPush_lookup (m : List (Seg × List Patch)) (k : Seg) (p : Patch) (k' : Seg) :
    alookup (groupPush m k p) k' =
      if k' = k then some ((alookup m k).getD [] ++ [p]) else alookup m k' := by
  induction m with
  | nil =>
    by_cases h : k' = k
    · subst h; simp [groupPush, alookup]
    · simp [groupPush, alookup, h, Ne.symm h]
  | cons hd tl ih =>
    obtain ⟨a, b⟩ := hd
    by_cases hak : a = k
    · subst hak
      by_cases h : k' = a
      · subst h; simp [groupPush, alookup]
      · simp [groupPush, alookup, h, Ne.symm h]
    · by_cases h : k' = a
      · subst h
        simp [groupPush, hak, alookup]
      · simp [groupPush, hak, alookup, h, Ne.symm h, ih]

theorem groupPush_keys (m : List (Seg × List Patch)) (k : Seg) (p : Patch) :
    (groupPush m k p).map Prod.fst =
      if k ∈ m.map Prod.fst then m.map Prod.fst else m.map Prod.fst ++ [k] := by
  induction m with
  | nil => simp [groupPush]
  | cons hd tl ih =>
    obtain ⟨a, b⟩ := hd
    by_cases hak : a = k
    · subst hak
      simp [groupPush]
    · by_cases hk : k ∈ tl.map Prod.fst <;>
        simp [groupPush, hak, ih, hk, Ne.symm hak]

theorem groupPush_keys_nodup {m : List (Seg × List Patch)} {k : Seg} {p : Patch}
    (h : (m.map Prod.fst).Nodup) : ((groupPush m k p).map Prod.fst).Nodup := by
  rw [groupPush_keys]
  by_cases hk : k ∈ m.map Prod.fst
  · simpa [hk]
  · simp only [hk, if_false, List.nodup_append]
    exact ⟨h, List.nodup_singleton k, by simpa [List.disjoint_singleton] using hk⟩

/-- Combination of an already-accumulated group with the patches still to be
pushed for the same key: no entry is created when nothing is pushed. -/
def optAppend (o : Option (List Patch)) (l : List Patch) : Option (List Patch) :=
  match o, l with
  | none, [] => none
  | none, l => some l
  | some g, l => some (g ++ l)

theorem optAppend_none (l : List Patch) :
    optAppend none l = if l.isEmpty then none else some l := by
  cases l <;> rfl

theorem groupGo_lookup (patches : List Patch) :
    ∀ tl al tl' al', groupGo patches tl al = .ok (tl', al') →
      ∀ k, alookup al' k =
        optAppend (alookup al k)
          (patches.filter (fun p => p.path.head? = some k)) := by
  induction patches with
  | nil =>
    intro tl al tl' al' h k
    simp [groupGo] at h
    cases h.2
    cases alookup al k <;> simp [optAppend]
  | cons p rest ih =>
    intro tl al tl' al' h k
    cases hp : p.path with
    | nil => simp [groupGo, hp] at h
    | cons fieldKey t =>
      simp only [groupGo, hp] at h
      have hal := ih _ _ _ _ h k
      rw [hal, groupPush_lookup]
      by_cases hk : k = fieldKey
      · subst hk
        have hf : List.filter (fun q => decide (q.path.head? = some k)) (p :: rest)
            = p :: List.filter (fun q => decide (q.path.head? = some k)) rest := by
          simp [List.filter_cons, hp]
        rw [if_pos rfl, hf]
        cases alookup al k <;> simp [optAppend]
      · have hf : List.filter (fun q => decide (q.path.head? = some k)) (p :: rest)
            = List.filter (fun q => decide (q.path.head? = some k)) rest := by
          simp [List.filter_cons, hp]
          exact fun hh => hk hh.symm
        rw [if_neg hk, hf]

theorem groupGo_keys_nodup (patches : List Patch) :
    ∀ tl al tl' al', groupGo patches tl al = .ok (tl', al') →
      (al.map Prod.fst).Nodup → (al'.map Prod.fst).Nodup := by
  induction patches with
  | nil =>
    intro tl al tl' al' h hn
    simp [groupGo] at h
    cases h.2
    exact hn
  | cons p rest ih =>
    intro tl al tl' al' h hn
    cases hp : p.path with
    | nil => simp [groupGo, hp] at h
    | cons fieldKey t =>
      simp only [groupGo, hp] at h
      exact ih _ _ _ _ h (groupPush_keys_nodup hn)

theorem groupGo_error_iff (patches : List Patch) :
    ∀ tl al, groupGo patches tl al = .error emptyPathError ↔ ∃ p ∈ patches, p.path = [] := by
  induction patches with
  | nil => intro tl al; simp [groupGo]
  | cons p rest ih =>
    intro tl al
    cases hp : p.path with
    | nil =>
      simp only [groupGo, hp]
      constructor
      · intro _; exact ⟨p, List.mem_cons_self p rest, hp⟩
      · intro _; trivial
    | cons fieldKey t =>
      simp only [groupGo, hp]
      rw [ih]
      constructor
      · rintro ⟨q, hq, hq0⟩; exact ⟨q, List.mem_cons_of_mem p hq, hq0⟩
      · rintro ⟨q, hq, hq0⟩
        rcases List.mem_cons.mp hq with rfl | hq'
        · rw [hp] at hq0; cases hq0
        · exact ⟨q, hq', hq0⟩

theorem groupGo_ok (patches : List Patch) :
    ∀ tl al, (∀ p ∈ patches, p.path ≠ []) →
      ∃ r, groupGo patches tl al = .ok r := by
  induction patches with
  | nil => intro tl al _; exact ⟨(tl, al), rfl⟩
  | cons p rest ih =>
    intro tl al h
    cases hp : p.path with
    | nil => exact absurd hp (h p (by simp))
    | cons fieldKey t =>
      simp only [groupGo, hp]
      exact ih _ _ (fun q hq => h q (by simp [hq]))

theorem groupPatchesByField_all_lookup {patches : List Patch}
    {tl all : List (Seg × List Patch)}
    (h : groupPatchesByField patches = .ok (tl, all)) (k : Seg) :
    alookup all k =
      (if (patches.filter (fun p => p.path.head? = some k)).isEmpty then none
       else some (patches.filter (fun p => p.path.head? = some k))) := by
  rw [groupGo_lookup patches _ _ _ _ h k]
  simp [alookup, optAppend_none]

/-! ### Lemmas about second-key extraction -/

theorem setAdd_mem (s : List Seg) (k k' : Seg) :
    k' ∈ setAdd s k ↔ k' ∈ s ∨ k' = k := by
  by_cases h : k ∈ s
  · simp only [setAdd, if_pos h]
    exact ⟨Or.inl, fun hh => hh.elim id (fun e => e ▸ h)⟩
  · simp [setAdd, h]

theorem setAdd_nodup {s : List Seg} {k : Seg} (h : s.Nodup) : (setAdd s k).Nodup := by
  by_cases hk : k ∈ s
  · simpa [setAdd, hk]
  · simp only [setAdd, if_neg hk, List.nodup_append]
    exact ⟨h, List.nodup_singleton k, by simpa [List.disjoint_singleton] using hk⟩

theorem extract_foldl_mem (patches : List Patch) :
    ∀ s k, k ∈ patches.foldl
        (fun s p => match p.path with
          | _ :: k :: _ => setAdd s k
          | _ => s) s
      ↔ k ∈ s ∨ ∃ p ∈ patches, p.path[1]? = some k := by
  induction patches with
  | nil => intro s k; simp
  | cons p rest ih =>
    intro s k
    rw [List.foldl_cons]
    cases hp : p.path with
    | nil =>
      simp only [hp, ih]
      constructor
      · rintro (h | h)
        · exact Or.inl h
        · exact Or.inr (by rcases h with ⟨q, hq, h2⟩; exact ⟨q, List.mem_cons_of_mem p hq, h2⟩)
      · rintro (h | ⟨q, hq, h2⟩)
        · exact Or.inl h
        · rcases List.mem_cons.mp hq with rfl | hq'
          · rw [hp] at h2; simp at h2
          · exact Or.inr ⟨q, hq', h2⟩
    | cons a t =>
      cases ht : t with
      | nil =>
        simp only [hp, ht, ih]
        constructor
        · rintro (h | h)
          · exact Or.inl h
          · exact Or.inr (by rcases h with ⟨q, hq, h2⟩; exact ⟨q, List.mem_cons_of_mem p hq, h2⟩)
        · rintro (h | ⟨q, hq, h2⟩)
          · exact Or.inl h
          · rcases List.mem_cons.mp hq with rfl | hq'
            · rw [hp, ht] at h2; simp at h2
            · exact Or.inr ⟨q, hq', h2⟩
      | cons b t' =>
        simp only [hp, ht, ih, setAdd_mem]
        constructor
        · rintro ((h | rfl) | h)
          · exact Or.inl h
          · exact Or.inr ⟨p, List.mem_cons_self p rest, by simp [hp, ht]⟩
          · exact Or.inr (by rcases h with ⟨q, hq, h2⟩; exact ⟨q, List.mem_cons_of_mem p hq, h2⟩)
        · rintro (h | ⟨q, hq, h2⟩)
          · exact Or.inl (Or.inl h)
          · rcases List.mem_cons.mp hq with rfl | hq'
            · rw [hp, ht] at h2; simp at h2; exact Or.inl (Or.inr h2.symm)
            · exact Or.inr ⟨q, hq', h2⟩

theorem mem_extractSecondKeys (patches : List Patch) (k : Seg) :
    k ∈ extractSecondKeysFromPatches patches ↔ ∃ p ∈ patches, p.path[1]? = some k := by
  rw [extractSecondKeysFromPatches, extract_foldl_mem]
  simp

theorem extract_foldl_nodup (patches : List Patch) :
    ∀ s : List Seg, s.Nodup →
      (patches.foldl
        (fun s p => match p.path with
          | _ :: k :: _ => setAdd s k
          | _ => s) s).Nodup := by
  induction patches with
  | nil => intro s hs; simpa
  | cons p rest ih =>
    intro s hs
    rw [List.foldl_cons]
    cases hp : p.path with
    | nil => simpa [hp] using ih s hs
    | cons a t =>
      cases ht : t with
      | nil => simpa [hp, ht] using ih s hs
      | cons b t' => simpa [hp, ht] using ih _ (setAdd_nodup hs)

theorem extractSecondKeys_nodup (patches : List Patch) :
    (extractSecondKeysFromPatches patches).Nodup :=
  extract_foldl_nodup patches [] List.nodup_nil

/-! ### Lemmas about emissions -/

/-- Bool test: a plain emission of the given event. -/
def isPlainFor (ev : String) : Emission → Bool
  | .plain e _ => e = ev
  | _ => false

/-- Bool test: a keyed emission of the given event and key. -/
def isKeyedFor (ev : String) (k : Seg) : Emission → Bool
  | .keyed e k' _ => e = ev && k' = k
  | _ => false

/-- Bool test: any keyed emission of the given event. -/
def isKeyedForEvent (ev : String) : Emission → Bool
  | .keyed e _ _ => e = ev
  | _ => false

@[simp] theorem isPlainFor_plain (ev e : String) (ps : List Patch) :
    isPlainFor ev (Emission.plain e ps) = decide (e = ev) := rfl

@[simp] theorem isPlainFor_keyed (ev e : String) (k : Seg) (ps : List Patch) :
    isPlainFor ev (Emission.keyed e k ps) = false := rfl

@[simp] theorem isKeyedFor_plain (ev e : String) (k : Seg) (ps : List Patch) :
    isKeyedFor ev k (Emission.plain e ps) = false := rfl

@[simp] theorem isKeyedFor_keyed (ev e : String) (k k' : Seg) (ps : List Patch) :
    isKeyedFor ev k (Emission.keyed e k' ps) = (decide (e = ev) && decide (k' = k)) := rfl

@[simp] theorem isKeyedForEvent_plain (ev e : String) (ps : List Patch) :
    isKeyedForEvent ev (Emission.plain e ps) = false := rfl

@[simp] theorem isKeyedForEvent_keyed (ev e : String) (k : Seg) (ps : List Patch) :
    isKeyedForEvent ev (Emission.keyed e k ps) = decide (e = ev) := rfl

theorem emitAll_nil (hasKeyed : String → Bool) : emitAll hasKeyed [] = [] := rfl

theorem emitAll_cons (hasKeyed : String → Bool) (g : Seg × List Patch)
    (groups : List (Seg × List Patch)) :
    emitAll hasKeyed (g :: groups) =
      emitForGroup hasKeyed g ++ emitAll hasKeyed groups := by
  simp [emitAll]

theorem mem_emitForGroup_plain {hasKeyed : String → Bool} {g : Seg × List Patch}
    {ev : String} {ps : List Patch} :
    Emission.plain ev ps ∈ emitForGroup hasKeyed g ↔ ev = eventName g.1 ∧ ps = g.2 := by
  by_cases h : hasKeyed (eventName g.1) <;> simp [emitForGroup, h]

theorem mem_emitForGroup_keyed {hasKeyed : String → Bool} {g : Seg × List Patch}
    {ev : String} {k : Seg} {ps : List Patch} :
    Emission.keyed ev k ps ∈ emitForGroup hasKeyed g ↔
      ev = eventName g.1 ∧ ps = g.2 ∧ hasKeyed (eventName g.1) = true ∧
        k ∈ extractSecondKeysFromPatches g.2 := by
  by_cases h : hasKeyed (eventName g.1) <;> simp [emitForGroup, h]
  all_goals aesop

theorem mem_emitAll_plain {hasKeyed : String → Bool} {groups : List (Seg × List Patch)}
    {ev : String} {ps : List Patch} :
    Emission.plain ev ps ∈ emitAll hasKeyed groups ↔
      ∃ g ∈ groups, ev = eventName g.1 ∧ ps = g.2 := by
  constructor
  · intro hm
    obtain ⟨l, hl, hml⟩ := List.mem_flatten.mp hm
    obtain ⟨g, hg, rfl⟩ := List.mem_map.mp hl
    obtain ⟨he, hp⟩ := mem_emitForGroup_plain.mp hml
    exact ⟨g, hg, he, hp⟩
  · rintro ⟨g, hg, he, hp⟩
    exact List.mem_flatten.mpr ⟨_, List.mem_map.mpr ⟨g, hg, rfl⟩,
      mem_emitForGroup_plain.mpr ⟨he, hp⟩⟩

theorem mem_emitAll_keyed {hasKeyed : String → Bool} {groups : List (Seg × List Patch)}
    {ev : String} {k : Seg} {ps : List Patch} :
    Emission.keyed ev k ps ∈ emitAll hasKeyed groups ↔
      ∃ g ∈ groups, ev = eventName g.1 ∧ ps = g.2 ∧ hasKeyed (eventName g.1) = true ∧
        k ∈ extractSecondKeysFromPatches g.2 := by
  constructor
  · intro hm
    obtain ⟨l, hl, hml⟩ := List.mem_flatten.mp hm
    obtain ⟨g, hg, rfl⟩ := List.mem_map.mp hl
    exact ⟨g, hg, mem_emitForGroup_keyed.mp hml⟩
  · rintro ⟨g, hg, hrest⟩
    exact List.mem_flatten.mpr ⟨_, List.mem_map.mpr ⟨g, hg, rfl⟩,
      mem_emitForGroup_keyed.mpr hrest⟩

theorem countP_isPlainFor_keyedmap (ev0 ev : String) (ps : List Patch)
    (keys : List Seg) :
    (keys.map (fun k => Emission.keyed ev0 k ps)).countP (isPlainFor ev) = 0 := by
  rw [List.countP_eq_zero]
  intro a ha
  obtain ⟨k, _, rfl⟩ := List.mem_map.mp ha
  simp

theorem countP_isPlainFor_emitForGroup (hasKeyed : String → Bool) (g : Seg × List Patch)
    (ev : String) :
    (emitForGroup hasKeyed g).countP (isPlainFor ev) =
      if eventName g.1 = ev then 1 else 0 := by
  by_cases h : hasKeyed (eventName g.1) <;>
    by_cases he : eventName g.1 = ev <;>
      simp [emitForGroup, h, he, List.countP_cons, countP_isPlainFor_keyedmap] <;>
        (rintro a - x - rfl; simp)

theorem emitAll_countP_plain (hasKeyed : String → Bool) (groups : List (Seg × List Patch))
    (ev : String) :
    (emitAll hasKeyed groups).countP (isPlainFor ev) =
      groups.countP (fun g => eventName g.1 = ev) := by
  induction groups with
  | nil => simp [emitAll]
  | cons g rest ih =>
    rw [emitAll_cons, List.countP_append, countP_isPlainFor_emitForGroup, ih,
      List.countP_cons]
    by_cases h : eventName g.1 = ev
    · simp [h, Nat.add_comm]
    · simp [h]

/-! ### Field keys of the grouped map -/

theorem eventName_str_inj {s s' : String}
    (h : eventName (Seg.str s) = eventName (Seg.str s')) : s = s' := by
  have hd : s.data ++ (":updated" : String).data = s'.data ++ (":updated" : String).data := by
    have h2 := congrArg String.data h
    simpa [eventName, segToString, String.data_append] using h2
  exact String.ext (List.append_cancel_right hd)

theorem mem_keys_iff {patches : List Patch} {tl all : List (Seg × List Patch)}
    (h : groupPatchesByField patches = .ok (tl, all)) (k : Seg) :
    k ∈ all.map Prod.fst ↔ ∃ p ∈ patches, p.path.head? = some k := by
  have h1 := alookup_eq_none_iff all k
  have h2 := groupPatchesByField_all_lookup h k
  by_cases hf : (patches.filter (fun p => p.path.head? = some k)).isEmpty
  · rw [if_pos hf] at h2
    have hk : k ∉ all.map Prod.fst := h1.mp h2
    simp only [hk, false_iff]
    rw [List.isEmpty_iff, List.filter_eq_nil_iff] at hf
    rintro ⟨p, hp, hpk⟩
    exact hf p hp (by simp [hpk])
  · rw [if_neg hf] at h2
    have hk : k ∈ all.map Prod.fst := by
      by_contra hc
      rw [h1.mpr hc] at h2
      cases h2
    simp only [hk, true_iff]
    rw [List.isEmpty_iff] at hf
    obtain ⟨p, hp⟩ := List.exists_mem_of_ne_nil _ hf
    have := List.mem_filter.mp hp
    exact ⟨p, this.1, by simpa using this.2⟩

theorem keys_are_str {patches : List Patch} {tl all : List (Seg × List Patch)}
    (h : groupPatchesByField patches = .ok (tl, all))
    (hstr : ∀ p ∈ patches, ∃ s, p.path.head? = some (Seg.str s)) :
    ∀ k ∈ all.map Prod.fst, ∃ s, k = Seg.str s := by
  intro k hk
  obtain ⟨p, hp, hpk⟩ := (mem_keys_iff h k).mp hk
  obtain ⟨s, hs⟩ := hstr p hp
  exact ⟨s, by rw [hpk] at hs; exact Option.some.inj hs⟩

theorem countP_groups_event {patches : List Patch} {tl all : List (Seg × List Patch)}
    (h : groupPatchesByField patches = .ok (tl, all))
    (hstr : ∀ p ∈ patches, ∃ s, p.path.head? = some (Seg.str s)) (F : String) :
    all.countP (fun g => eventName g.1 = eventName (Seg.str F)) =
      if ∃ p ∈ patches, p.path.head? = some (Seg.str F) then 1 else 0 := by
  have hnodup : (all.map Prod.fst).Nodup :=
    groupGo_keys_nodup patches [] [] tl all h (by simp)
  have hmap : all.countP (fun g => eventName g.1 = eventName (Seg.str F))
      = (all.map Prod.fst).countP (fun k => eventName k = eventName (Seg.str F)) := by
    rw [List.countP_map]; rfl
  have hcong : (all.map Prod.fst).countP (fun k => eventName k = eventName (Seg.str F))
      = (all.map Prod.fst).countP (fun k => k = Seg.str F) := by
    apply List.countP_congr
    intro k hk
    obtain ⟨s, rfl⟩ := keys_are_str h hstr k hk
    simp only [decide_eq_true_eq]
    exact ⟨fun he => by rw [eventName_str_inj he], fun he => by rw [he]⟩
  have hcount : (all.map Prod.fst).countP (fun k => k = Seg.str F)
      = (all.map Prod.fst).count (Seg.str F) := by
    rw [List.count_eq_countP]
    apply List.countP_congr
    intro k _
    simp
  rw [hmap, hcong, hcount]
  by_cases hex : ∃ p ∈ patches, p.path.head? = some (Seg.str F)
  · rw [if_pos hex]
    exact List.count_eq_one_of_mem hnodup ((mem_keys_iff h _).mpr hex)
  · rw [if_neg hex]
    exact List.count_eq_zero_of_not_mem (fun hm => hex ((mem_keys_iff h _).mp hm))

/-! ### Unfolding update, and keyed-emission counting -/

theorem update_ok {σ : Type} (hasKeyed : String → Bool) (create : σ → σ × List Patch)
    (st : σ) {tl all : List (Seg × List Patch)}
    (h : groupPatchesByField (create st).2 = .ok (tl, all)) :
    update hasKeyed create st =
      ((create st).1, emitAll hasKeyed all, .ok (create st).2) := by
  simp only [update, h]

theorem update_error {σ : Type} (hasKeyed : String → Bool) (create : σ → σ × List Patch)
    (st : σ) {e : String} (h : groupPatchesByField (create st).2 = .error e) :
    update hasKeyed create st = ((create st).1, [], .error e) := by
  simp only [update, h]

/-- If the first components of the patches are all strings and grouping
succeeded, any plain emission carries exactly the order-preserving filter of
the producer's list on its field. -/
theorem plain_emission_group {patches : List Patch} {tl all : List (Seg × List Patch)}
    {hasKeyed : String → Bool} {ev : String} {ps : List Patch}
    (h : groupPatchesByField patches = .ok (tl, all))
    (hstr : ∀ p ∈ patches, ∃ s, p.path.head? = some (Seg.str s))
    (hm : Emission.plain ev ps ∈ emitAll hasKeyed all) :
    ∃ F : String, ev = eventName (Seg.str F) ∧
      ps = patches.filter (fun p => p.path.head? = some (Seg.str F)) := by
  obtain ⟨g, hg, he, hps⟩ := mem_emitAll_plain.mp hm
  obtain ⟨s, hs⟩ := keys_are_str h hstr g.1 (List.mem_map_of_mem Prod.fst hg)
  have hnodup : (all.map Prod.fst).Nodup :=
    groupGo_keys_nodup patches [] [] tl all h (by simp)
  have hl : alookup all g.1 = some g.2 := alookup_of_mem hnodup (by simpa using hg)
  rw [groupPatchesByField_all_lookup h g.1] at hl
  refine ⟨s, by rw [he, hs], ?_⟩
  by_cases hf : (patches.filter (fun p => p.path.head? = some g.1)).isEmpty
  · rw [if_pos hf] at hl; cases hl
  · rw [if_neg hf] at hl
    rw [hps, ← hs, Option.some.inj hl]

/-- In a nodup-keyed group map, entries with equal keys are equal. -/
theorem groups_eq_of_fst_eq {all : List (Seg × List Patch)}
    (hnodup : (all.map Prod.fst).Nodup) {a b : Seg × List Patch}
    (ha : a ∈ all) (hb : b ∈ all) (hf : a.1 = b.1) : a = b := by
  have h1 : alookup all a.1 = some a.2 := alookup_of_mem hnodup (by simpa using ha)
  have h2 : alookup all b.1 = some b.2 := alookup_of_mem hnodup (by simpa using hb)
  rw [hf, h2] at h1
  exact Prod.ext_iff.mpr ⟨hf, (Option.some.inj h1).symm⟩

/-- Counting elements of a nodup list when the predicate holds for at most one
element. -/
theorem countP_eq_ite_of_subsingleton {α : Type} (l : List α) (p : α → Bool)
    (hnd : l.Nodup) (hu : ∀ a ∈ l, ∀ b ∈ l, p a → p b → a = b) :
    l.countP p = if ∃ a ∈ l, p a then 1 else 0 := by
  induction l with
  | nil => simp
  | cons x xs ih =>
    rw [List.countP_cons]
    simp only [List.nodup_cons] at hnd
    by_cases hx : p x
    · have hnone : ∀ a ∈ xs, ¬ p a := by
        intro a ha hpa
        exact hnd.1 (hu a (List.mem_cons_of_mem x ha) x (List.mem_cons_self x xs) hpa hx ▸ ha)
      have hz : xs.countP p = 0 := by
        rw [List.countP_eq_zero]
        intro a ha
        simpa using hnone a ha
      rw [hz, if_pos hx]
      rw [if_pos ⟨x, List.mem_cons_self x xs, hx⟩]
    · have hifx : (if p x then 1 else 0) = 0 := by simp [hx]
      rw [hifx, Nat.add_zero]
      rw [ih hnd.2 (fun a ha b hb hpa hpb => hu a (List.mem_cons_of_mem x ha) b
        (List.mem_cons_of_mem x hb) hpa hpb)]
      have hiff : (∃ a ∈ xs, p a) ↔ (∃ a ∈ x :: xs, p a) := by
        constructor
        · rintro ⟨a, ha, hpa⟩
          exact ⟨a, List.mem_cons_of_mem x ha, hpa⟩
        · rintro ⟨a, ha, hpa⟩
          rcases List.mem_cons.mp ha with rfl | ha'
          · exact absurd hpa hx
          · exact ⟨a, ha', hpa⟩
      simp only [hiff]

theorem countP_isKeyedFor_keyedmap (ev0 ev : String) (K : Seg) (ps : List Patch)
    (keys : List Seg) (hnd : keys.Nodup) :
    (keys.map (fun k => Emission.keyed ev0 k ps)).countP (isKeyedFor ev K) =
      if ev0 = ev ∧ K ∈ keys then 1 else 0 := by
  rw [List.countP_map]
  by_cases he : ev0 = ev
  · subst he
    have hfe : (isKeyedFor ev0 K ∘ fun k => Emission.keyed ev0 k ps)
        = fun k => decide (k = K) := by
      funext k; simp [Function.comp]
    rw [hfe]
    have : keys.countP (fun k => decide (k = K)) = keys.count K := by
      rw [List.count_eq_countP]
      apply List.countP_congr
      intro k _
      simp
    rw [this]
    by_cases hk : K ∈ keys
    · rw [if_pos ⟨rfl, hk⟩]
      exact List.count_eq_one_of_mem hnd hk
    · rw [if_neg (by tauto)]
      exact List.count_eq_zero_of_not_mem hk
  · have hfe : (isKeyedFor ev K ∘ fun k => Emission.keyed ev0 k ps)
        = fun _ => false := by
      funext k; simp [Function.comp, he]
    rw [hfe, if_neg (by tauto)]
    simp

theorem countP_isKeyedFor_emitForGroup (hasKeyed : String → Bool)
    (g : Seg × List Patch) (ev : String) (K : Seg) :
    (emitForGroup hasKeyed g).countP (isKeyedFor ev K) =
      if eventName g.1 = ev ∧ hasKeyed (eventName g.1) = true ∧
          K ∈ extractSecondKeysFromPatches g.2
        then 1 else 0 := by
  by_cases h : hasKeyed (eventName g.1)
  · simp only [emitForGroup, h, if_true, List.countP_cons, isKeyedFor_plain]
    rw [countP_isKeyedFor_keyedmap _ _ _ _ _ (extractSecondKeys_nodup g.2)]
    by_cases he : eventName g.1 = ev <;> by_cases hk : K ∈ extractSecondKeysFromPatches g.2 <;>
      simp [he, hk, h]
  · simp [emitForGroup, h]

theorem emitAll_countP_keyed (hasKeyed : String → Bool)
    (groups : List (Seg × List Patch)) (ev : String) (K : Seg) :
    (emitAll hasKeyed groups).countP (isKeyedFor ev K) =
      groups.countP (fun g => eventName g.1 = ev ∧ hasKeyed (eventName g.1) = true ∧
        K ∈ extractSecondKeysFromPatches g.2) := by
  induction groups with
  | nil => simp [emitAll]
  | cons g rest ih =>
    rw [emitAll_cons, List.countP_append, countP_isKeyedFor_emitForGroup, ih,
      List.countP_cons]
    by_cases h : eventName g.1 = ev ∧ hasKeyed (eventName g.1) = true ∧
        K ∈ extractSecondKeysFromPatches g.2
    · simp [h, Nat.add_comm]
    · simp [h]

/-- If grouping succeeded, each entry of the `all` map holds exactly the
order-preserving filter of the patches on its key. -/
theorem mem_group_eq_filter {patches : List Patch} {tl all : List (Seg × List Patch)}
    (h : groupPatchesByField patches = .ok (tl, all))
    {g : Seg × List Patch} (hg : g ∈ all) :
    g.2 = patches.filter (fun p => p.path.head? = some g.1) := by
  have hnodup : (all.map Prod.fst).Nodup :=
    groupGo_keys_nodup patches [] [] tl all h (by simp)
  have hl : alookup all g.1 = some g.2 := alookup_of_mem hnodup (by simpa using hg)
  rw [groupPatchesByField_all_lookup h g.1] at hl
  by_cases hf : (patches.filter (fun p => p.path.head? = some g.1)).isEmpty
  · rw [if_pos hf] at hl; cases hl
  · rw [if_neg hf] at hl
    exact (Option.some.inj hl).symm

/-- Non-emptiness of every path, from the string-headed hypothesis. -/
theorem paths_nonempty_of_str {patches : List Patch}
    (hstr : ∀ p ∈ patches, ∃ s, p.path.head? = some (Seg.str s)) :
    ∀ p ∈ patches, p.path ≠ [] := by
  intro p hp h0
  obtain ⟨s, hs⟩ := hstr p hp
  rw [h0] at hs
  cases hs

/-- A plain emission of `"<F>:updated"` during `update` carries the filter of
the producer's patches on first segment `F`. -/
theorem update_plain_mem_eq_filter {σ : Type} {hasKeyed : String → Bool}
    {create : σ → σ × List Patch} {st : σ}
    (hstr : ∀ p ∈ (create st).2, ∃ s, p.path.head? = some (Seg.str s))
    {F : String} {ps : List Patch}
    (hm : Emission.plain (eventName (Seg.str F)) ps ∈ (update hasKeyed create st).2.1) :
    ps = (create st).2.filter (fun p => p.path.head? = some (Seg.str F)) := by
  obtain ⟨r, hok⟩ := groupGo_ok (create st).2 [] [] (paths_nonempty_of_str hstr)
  obtain ⟨tl, all⟩ := r
  rw [update_ok hasKeyed create st hok] at hm
  obtain ⟨F', hev, hps⟩ := plain_emission_group hok hstr hm
  rw [eventName_str_inj hev]
  exact hps

/-- Claim C1: for every call to `update`, exactly one plain event
`"<field>:updated"` is emitted per top-level field that appears as the first
path segment of at least one edit in the producer's edit list, carrying that
field's edit group; a field with zero edits produces no group and no event,
and an update whose producer returns zero edits emits no events at all. -/
theorem update_emits_one_plain_event_per_changed_field {σ : Type}
    (hasKeyed : String → Bool) (create : σ → σ × List Patch) (st : σ)
    (hstr : ∀ p ∈ (create st).2, ∃ s, p.path.head? = some (Seg.str s)) (F : String) :
    ((update hasKeyed create st).2.1.countP (isPlainFor (F ++ ":updated")) =
      if ∃ p ∈ (create st).2, p.path.head? = some (Seg.str F) then 1 else 0) ∧
    (∀ ps, Emission.plain (F ++ ":updated") ps ∈ (update hasKeyed create st).2.1 →
      ps = (create st).2.filter (fun p => p.path.head? = some (Seg.str F))) ∧
    ((create st).2 = [] → (update hasKeyed create st).2.1 = []) := by
  obtain ⟨r, hok⟩ := groupGo_ok (create st).2 [] [] (paths_nonempty_of_str hstr)
  obtain ⟨tl, all⟩ := r
  have hev : (F ++ ":updated") = eventName (Seg.str F) := rfl
  refine ⟨?_, ?_, ?_⟩
  · rw [update_ok hasKeyed create st hok]
    rw [hev]
    simp only
    rw [emitAll_countP_plain, countP_groups_event hok hstr F]
  · intro ps hm
    exact update_plain_mem_eq_filter hstr (hev ▸ hm)
  · intro hnil
    have h0 : groupPatchesByField (create st).2 = .ok ([], []) := by
      rw [hnil]; rfl
    rw [update_ok hasKeyed create st h0]
    rfl

/-- Claim C5: for each field `F`, the edit group delivered to `F`'s plain
listeners by an `update` equals the subsequence of the producer's edit list
consisting of exactly the edits whose first path segment is `F`, in the same
relative order as produced. -/
theorem field_group_is_ordered_subsequence_of_edits {σ : Type}
    (hasKeyed : String → Bool) (create : σ → σ × List Patch) (st : σ)
    (hstr : ∀ p ∈ (create st).2, ∃ s, p.path.head? = some (Seg.str s))
    (F : String) (ps : List Patch)
    (hm : Emission.plain (F ++ ":updated") ps ∈ (update hasKeyed create st).2.1) :
    ps = (create st).2.filter (fun p => p.path.head? = some (Seg.str F)) ∧
    ps.Sublist (create st).2 := by
  have hev : (F ++ ":updated") = eventName (Seg.str F) := rfl
  have h1 := update_plain_mem_eq_filter hstr (hev ▸ hm)
  exact ⟨h1, h1 ▸ List.filter_sublist _⟩

/-- Claim C3: if any edit in the producer's edit list has an empty path,
grouping raises the protocol error; if every edit has a non-empty path,
grouping raises no error. -/
theorem grouping_rejects_empty_path_and_accepts_nonempty (patches : List Patch) :
    ((∃ p ∈ patches, p.path = []) → groupPatchesByField patches = .error emptyPathError) ∧
    ((∀ p ∈ patches, p.path ≠ []) → ∃ r, groupPatchesByField patches = .ok r) :=
  ⟨fun h => (groupGo_error_iff patches [] []).mpr h,
   fun h => groupGo_ok patches [] [] h⟩

/-- Claim C4: every keyed emission for a field during an `update` passes the
field's full edit group — the same list delivered to the field's plain
listeners, not filtered to the emitted key. -/
theorem keyed_emission_passes_full_field_group {σ : Type}
    (hasKeyed : String → Bool) (create : σ → σ × List Patch) (st : σ)
    (hstr : ∀ p ∈ (create st).2, ∃ s, p.path.head? = some (Seg.str s))
    (ev : String) (K : Seg) (ps : List Patch)
    (hm : Emission.keyed ev K ps ∈ (update hasKeyed create st).2.1) :
    Emission.plain ev ps ∈ (update hasKeyed create st).2.1 ∧
    ∃ F : String, ev = F ++ ":updated" ∧
      ps = (create st).2.filter (fun p => p.path.head? = some (Seg.str F)) := by
  obtain ⟨r, hok⟩ := groupGo_ok (create st).2 [] [] (paths_nonempty_of_str hstr)
  obtain ⟨tl, all⟩ := r
  rw [update_ok hasKeyed create st hok] at hm ⊢
  obtain ⟨g, hg, he, hps, _, _⟩ := mem_emitAll_keyed.mp hm
  refine ⟨mem_emitAll_plain.mpr ⟨g, hg, he, hps⟩, ?_⟩
  obtain ⟨s, hs⟩ := keys_are_str hok hstr g.1 (List.mem_map_of_mem Prod.fst hg)
  refine ⟨s, by rw [he, hs]; rfl, ?_⟩
  rw [hps, mem_group_eq_filter hok hg, hs]

/-- Claim C8: `update` returns the complete, ungrouped edit list exactly as
produced by the producer. -/
theorem update_returns_full_ungrouped_patch_list {σ : Type}
    (hasKeyed : String → Bool) (create : σ → σ × List Patch) (st : σ)
    (h : ∀ p ∈ (create st).2, p.path ≠ []) :
    (update hasKeyed create st).2.2 = .ok (create st).2 := by
  obtain ⟨r, hok⟩ := groupGo_ok (create st).2 [] [] h
  obtain ⟨tl, all⟩ := r
  rw [update_ok hasKeyed create st hok]

/-- Claim C9: when the producer's edit list contains an empty-path edit,
`update` raises the protocol error only after the stored state has already
been replaced with the producer's new state, and before any event is
emitted: the state component is the new state, the emission trace is empty,
and the error is returned. -/
theorem empty_path_error_after_state_replacement_before_emission {σ : Type}
    (hasKeyed : String → Bool) (create : σ → σ × List Patch) (st : σ)
    (h : ∃ p ∈ (create st).2, p.path = []) :
    update hasKeyed create st = ((create st).1, [], .error emptyPathError) :=
  update_error hasKeyed create st ((groupGo_error_iff (create st).2 [] []).mpr h)

/-- Existence of a keyed-emission witness group, characterised by the
producer's edit list. -/
theorem exists_keyed_group_iff {patches : List Patch} {tl all : List (Seg × List Patch)}
    (hok : groupPatchesByField patches = .ok (tl, all))
    (hstr : ∀ p ∈ patches, ∃ s, p.path.head? = some (Seg.str s))
    (hasKeyed : String → Bool) (F : String) (K : Seg) :
    (∃ g ∈ all, eventName g.1 = eventName (Seg.str F) ∧
        hasKeyed (eventName g.1) = true ∧ K ∈ extractSecondKeysFromPatches g.2) ↔
      (hasKeyed (eventName (Seg.str F)) = true ∧
        ∃ p ∈ patches, p.path.head? = some (Seg.str F) ∧ p.path[1]? = some K) := by
  constructor
  · rintro ⟨g, hg, he, hk, hK⟩
    obtain ⟨s, hs⟩ := keys_are_str hok hstr g.1 (List.mem_map_of_mem Prod.fst hg)
    have hF : g.1 = Seg.str F := by
      rw [hs] at he ⊢
      rw [eventName_str_inj he]
    rw [hF] at hk
    refine ⟨hk, ?_⟩
    rw [mem_group_eq_filter hok hg, hF] at hK
    obtain ⟨p, hp, hp1⟩ := (mem_extractSecondKeys _ K).mp hK
    have hpf := List.mem_filter.mp hp
    exact ⟨p, hpf.1, by simpa using hpf.2, hp1⟩
  · rintro ⟨hk, p, hp, hpF, hp1⟩
    set flt := patches.filter (fun q => q.path.head? = some (Seg.str F)) with hflt
    have hpmem : p ∈ flt := List.mem_filter.mpr ⟨hp, by simp [hpF]⟩
    have hne : ¬ flt.isEmpty := by
      rw [List.isEmpty_iff]
      intro h0
      rw [h0] at hpmem
      cases hpmem
    have hl : alookup all (Seg.str F) = some flt := by
      rw [groupPatchesByField_all_lookup hok (Seg.str F), if_neg hne]
    refine ⟨(Seg.str F, flt), alookup_mem hl, rfl, hk, ?_⟩
    exact (mem_extractSecondKeys _ K).mpr ⟨p, hpmem, hp1⟩

/-- Claim C2: during a single `update`, a keyed event for key `K` on field
`F` is emitted iff the router reports a keyed listener for `"F:updated"` and
at least one edit in `F`'s group has path length ≥ 2 with second segment `K`;
exactly one keyed emission occurs per distinct such `K`, and no keyed
emission for the event happens at all when the router reports no keyed
listener. -/
theorem keyed_emission_iff_listener_and_matching_second_segment {σ : Type}
    (hasKeyed : String → Bool) (create : σ → σ × List Patch) (st : σ)
    (hstr : ∀ p ∈ (create st).2, ∃ s, p.path.head? = some (Seg.str s))
    (F : String) (K : Seg) :
    ((∃ ps, Emission.keyed (F ++ ":updated") K ps ∈ (update hasKeyed create st).2.1) ↔
      (hasKeyed (F ++ ":updated") = true ∧
        ∃ p ∈ (create st).2, p.path.head? = some (Seg.str F) ∧ p.path[1]? = some K)) ∧
    ((update hasKeyed create st).2.1.countP (isKeyedFor (F ++ ":updated") K) =
      if hasKeyed (F ++ ":updated") = true ∧
          ∃ p ∈ (create st).2, p.path.head? = some (Seg.str F) ∧ p.path[1]? = some K
        then 1 else 0) ∧
    (hasKeyed (F ++ ":updated") = false →
      ∀ ps, Emission.keyed (F ++ ":updated") K ps ∉ (update hasKeyed create st).2.1) := by
  obtain ⟨r, hok⟩ := groupGo_ok (create st).2 [] [] (paths_nonempty_of_str hstr)
  obtain ⟨tl, all⟩ := r
  have hev : (F ++ ":updated") = eventName (Seg.str F) := rfl
  have hnodupk : (all.map Prod.fst).Nodup :=
    groupGo_keys_nodup (create st).2 [] [] tl all hok (by simp)
  have hgiff := exists_keyed_group_iff hok hstr hasKeyed F K
  have hmem : ∀ ps, Emission.keyed (eventName (Seg.str F)) K ps ∈ emitAll hasKeyed all ↔
      ∃ g ∈ all, eventName (Seg.str F) = eventName g.1 ∧ ps = g.2 ∧
        hasKeyed (eventName g.1) = true ∧ K ∈ extractSecondKeysFromPatches g.2 :=
    fun ps => mem_emitAll_keyed
  refine ⟨?_, ?_, ?_⟩
  · rw [update_ok hasKeyed create st hok]
    simp only
    rw [hev]
    constructor
    · rintro ⟨ps, hm⟩
      obtain ⟨g, hg, he, _, hk, hK⟩ := (hmem ps).mp hm
      exact (hev ▸ hgiff).mp ⟨g, hg, he.symm, hk, hK⟩
    · intro hrhs
      obtain ⟨g, hg, he, hk, hK⟩ := (hev ▸ hgiff).mpr hrhs
      exact ⟨g.2, (hmem g.2).mpr ⟨g, hg, he.symm, rfl, hk, hK⟩⟩
  · rw [update_ok hasKeyed create st hok]
    simp only
    rw [hev]
    rw [emitAll_countP_keyed]
    rw [countP_eq_ite_of_subsingleton all _ (hnodupk.of_map) ?_]
    · by_cases hc : hasKeyed (eventName (Seg.str F)) = true ∧
          ∃ p ∈ (create st).2, p.path.head? = some (Seg.str F) ∧ p.path[1]? = some K
      · rw [if_pos hc, if_pos ?_]
        obtain ⟨g, hg, he, hk, hK⟩ := hgiff.mpr hc
        exact ⟨g, hg, by simpa using ⟨he, hk, hK⟩⟩
      · rw [if_neg hc, if_neg ?_]
        rintro ⟨g, hg, hgp⟩
        simp only [decide_eq_true_eq] at hgp
        exact hc (hgiff.mp ⟨g, hg, hgp.1, hgp.2.1, hgp.2.2⟩)
    · intro a ha b hb hpa hpb
      simp only [decide_eq_true_eq] at hpa hpb
      have hfa : a.1 = b.1 := by
        obtain ⟨sa, hsa⟩ := keys_are_str hok hstr a.1 (List.mem_map_of_mem Prod.fst ha)
        obtain ⟨sb, hsb⟩ := keys_are_str hok hstr b.1 (List.mem_map_of_mem Prod.fst hb)
        rw [hsa, hsb]
        rw [hsa] at hpa
        rw [hsb] at hpb
        rw [eventName_str_inj (hpa.1.trans hpb.1.symm)]
      exact groups_eq_of_fst_eq hnodupk ha hb hfa
  · intro hfalse ps hm
    rw [update_ok hasKeyed create st hok] at hm
    obtain ⟨g, hg, he, _, hk, _⟩ := mem_emitAll_keyed.mp hm
    rw [← he] at hk
    rw [hfalse] at hk
    cases hk

/-! ### Heap model for the shallow-copy semantics of `getState` -/

/-- The store together with a heap of top-level containers. `stateAddr` is the
reference held in `this.state`; the heap maps addresses (list indices) to the
own enumerable slots of each container, a slot being field name ↦ reference to
the field value. Field values are opaque heap references (`Nat`), which is all
shallow-copy semantics can observe. -/
structure HStore where
  stateAddr : Nat
  heap : List (List (String × Nat))
deriving DecidableEq, Repr

/-- `ObservableStore.get` (`src/src/index.ts:155-157`): `this.state[name]`,
a direct slot lookup on the state container. -/
def getH (s : HStore) (f : String) : Option Nat :=
  alookup (s.heap.getD s.stateAddr []) f

/-- `ObservableStore.getState` (`src/src/index.ts:384-386`): `{...this.state}`
allocates a fresh top-level container holding the same field ↦ reference
slots, and returns its address. -/
def getStateH (s : HStore) : HStore × Nat :=
  ({ s with heap := s.heap ++ [s.heap.getD s.stateAddr []] }, s.heap.length)

/-- JS assignment `obj[f] = v` on a container's slots: replace the slot in
place or append it. -/
def slotsSet (sl : List (String × Nat)) (f : String) (v : Nat) :
    List (String × Nat) :=
  match sl with
  | [] => [(f, v)]
  | (g, w) :: rest => if g = f then (f, v) :: rest else (g, w) :: slotsSet rest f v

/-- Assign to a field slot of the container at address `a`. -/
def setSlotH (s : HStore) (a : Nat) (f : String) (v : Nat) : HStore :=
  { s with heap := s.heap.set a (slotsSet (s.heap.getD a []) f v) }

/-- Claim C6: `getState()` returns a new top-level container whose entries are
reference-identical to the stored field values; for every field `f`, `get f`
equals the `f` slot of the returned copy; and assigning to a field slot of
the copy leaves the store's own state — hence every `get` — unchanged. -/
theorem getState_is_shallow_copy (s : HStore) (hvalid : s.stateAddr < s.heap.length) :
    ((getStateH s).2 ≠ s.stateAddr) ∧
    ((getStateH s).1.heap.getD (getStateH s).2 [] = s.heap.getD s.stateAddr []) ∧
    (∀ f, getH s f = alookup ((getStateH s).1.heap.getD (getStateH s).2 []) f) ∧
    (∀ f v g, getH (setSlotH (getStateH s).1 (getStateH s).2 f v) g = getH s g) := by
  have hcopy : (getStateH s).1.heap.getD (getStateH s).2 [] =
      s.heap.getD s.stateAddr [] := by
    simp only [getStateH]
    rw [List.getD_eq_getElem?_getD, List.getElem?_concat_length]
    rfl
  refine ⟨fun h => absurd (h ▸ hvalid) (lt_irrefl _), hcopy, fun f => by rw [hcopy]; rfl, ?_⟩
  intro f v g
  simp only [getH, setSlotH, getStateH]
  congr 1
  rw [List.getD_eq_getElem?_getD, List.getD_eq_getElem?_getD,
    List.getElem?_set_ne (Nat.ne_of_lt hvalid).symm,
    List.getElem?_append_left hvalid]

/-- Witness for claim C6 at a concrete store. -/
theorem getState_is_shallow_copy_witness :
    (0 < (HStore.mk 0 [[("a", 5)]]).heap.length) ∧
    (((getStateH (HStore.mk 0 [[("a", 5)]])).2 ≠ 0) ∧
     ((getStateH (HStore.mk 0 [[("a", 5)]])).1.heap.getD
        (getStateH (HStore.mk 0 [[("a", 5)]])).2 [] = [("a", 5)]) ∧
     (∀ f, getH (HStore.mk 0 [[("a", 5)]]) f =
        alookup ((getStateH (HStore.mk 0 [[("a", 5)]])).1.heap.getD
          (getStateH (HStore.mk 0 [[("a", 5)]])).2 []) f) ∧
     (∀ f v g, getH (setSlotH (getStateH (HStore.mk 0 [[("a", 5)]])).1
        (getStateH (HStore.mk 0 [[("a", 5)]])).2 f v) g =
          getH (HStore.mk 0 [[("a", 5)]]) g)) :=
  ⟨by decide, getState_is_shallow_copy (HStore.mk 0 [[("a", 5)]]) (by decide)⟩

/-! ### System model: router listener tables and dispatch

The event router lives in the external `radiate` package, outside this
repository's sources. Its tables and dispatch are modelled from the spec
(§3 listener tables, §4.2 operations, §5 snapshot-per-emit); the store-side
code (`update`, `createSubscribeHandlers`, `createKeyedSubscribeHandlers`)
is embedded from `src/src/index.ts`. -/

/-- A listener callback as stored in a router table. `raw` is a caller
callback registered through `on`/`onKeyed` (receives the patch group);
`valueSub` is the wrapper closure created by the store's subscription
handlers (`src/src/index.ts:409,439`), which ignores the patches and
re-reads `get(field)`. Callbacks are identified by numeric ids. -/
inductive PKind where
  | raw (cbId : Nat)
  | valueSub (cbId : Nat) (field : String)
deriving DecidableEq, Repr

/-- The callback identity of a table entry. -/
def cbIdOf : PKind → Nat
  | .raw id => id
  | .valueSub id _ => id

/-- Modelled from the spec: an entry of the router's plain-listener table
(event, one-shot flag, callback, registration identity used by unsubscribe). -/
structure PlainEntry where
  event : String
  once : Bool
  kind : PKind
  uid : Nat
deriving DecidableEq, Repr

/-- Modelled from the spec: an entry of the router's keyed-listener table;
`sel = some k` is a specific-key listener, `sel = none` the wildcard `'*'`. -/
structure KeyedEntry where
  event : String
  sel : Option Seg
  once : Bool
  kind : PKind
  uid : Nat
deriving DecidableEq, Repr

/-- The observable store with its router: current state (an insertion-ordered
field map), the two listener tables, a fresh-uid counter, and the two
derived subscription maps represented by the list of field names they were
built for. -/
structure Sys (V : Type) where
  state : List (String × V)
  plainT : List PlainEntry
  keyedT : List KeyedEntry
  nextUid : Nat
  subsFields : List String
  keyedSubsFields : List String
deriving DecidableEq, Repr

/-- `new ObservableStore(state)` (`src/src/index.ts:80-88`): fresh router,
and the two subscription maps built from `Object.keys(this.state)` by
`createSubscribeHandlers` / `createKeyedSubscribeHandlers`. -/
def mkStore {V : Type} (init : List (String × V)) : Sys V :=
  { state := init, plainT := [], keyedT := [], nextUid := 0,
    subsFields := init.map Prod.fst, keyedSubsFields := init.map Prod.fst }

/-- One observable callback invocation during dispatch. -/
inductive Invocation (V : Type) where
  | patches (cbId : Nat) (ps : List Patch)
  | keyedPatches (cbId : Nat) (key : Seg) (ps : List Patch)
  | value (cbId : Nat) (v : Option V)
deriving DecidableEq, Repr

/-- The callback id an invocation goes to. -/
def invCbId {V : Type} : Invocation V → Nat
  | .patches id _ => id
  | .keyedPatches id _ _ => id
  | .value id _ => id

/-- What invoking a plain-table callback does: a raw listener receives the
patch group; a value-subscription wrapper re-reads the current field value
(`() => callback(this.get(key))`, `src/src/index.ts:409-411`). -/
def invokePlain {V : Type} (state : List (String × V)) (ps : List Patch) :
    PKind → Invocation V
  | .raw id => .patches id ps
  | .valueSub id f => .value id (alookup state f)

/-- Modelled from the spec: `emit(event, patches)` snapshots the plain
listeners for the event, invokes each in registration order, then removes
the one-shot listeners that fired. -/
def emitPlain {V : Type} (sys : Sys V) (ev : String) (ps : List Patch) :
    Sys V × List (Invocation V) :=
  ({ sys with plainT :=
      sys.plainT.filter (fun en => ¬(en.event = ev ∧ en.once = true)) },
   (sys.plainT.filter (fun en => en.event = ev)).map
     (fun en => invokePlain sys.state ps en.kind))

/-- What invoking a keyed-table callback does; a wildcard raw listener
receives the key as first argument. -/
def invokeKeyed {V : Type} (state : List (String × V)) (k : Seg)
    (ps : List Patch) (wild : Bool) : PKind → Invocation V
  | .raw id => if wild then .keyedPatches id k ps else .patches id ps
  | .valueSub id f => .value id (alookup state f)

/-- Modelled from the spec: `emitKeyed(event, key, patches)` invokes the
exact-key listeners then the wildcard listeners, each set in registration
order, and removes the one-shot listeners that fired. -/
def emitKeyedS {V : Type} (sys : Sys V) (ev : String) (k : Seg) (ps : List Patch) :
    Sys V × List (Invocation V) :=
  ({ sys with keyedT := (sys.keyedT.filter
      (fun en => ¬(en.event = ev ∧ (en.sel = some k ∨ en.sel = none) ∧ en.once = true))) },
   ((sys.keyedT.filter (fun en => en.event = ev ∧ en.sel = some k)).map
     (fun en => invokeKeyed sys.state k ps false en.kind)) ++
   ((sys.keyedT.filter (fun en => en.event = ev ∧ en.sel = none)).map
     (fun en => invokeKeyed sys.state k ps true en.kind)))

/-- Modelled from the spec: `hasKeyedListeners(event)` is true iff any
specific-key or wildcard keyed listener is registered for the event. -/
def hasKeyedListenersS {V : Type} (sys : Sys V) (ev : String) : Bool :=
  sys.keyedT.any (fun en => en.event = ev)

/-- The keyed-emission loop of `update` (`src/src/index.ts:121-125`): one
`emitKeyed` per extracted changed key, in order. -/
def runKeyedEmits {V : Type} (sys : Sys V) (ev : String) (ks : List Seg)
    (ps : List Patch) : Sys V × List (Invocation V) :=
  match ks with
  | [] => (sys, [])
  | k :: rest =>
    let r1 := emitKeyedS sys ev k ps
    let r2 := runKeyedEmits r1.1 ev rest ps
    (r2.1, r1.2 ++ r2.2)

/-- The emission loop of `update` (`src/src/index.ts:113-127`): per field
group in order, the plain emit, then — only when the router reports keyed
listeners for the event at that moment — the keyed emits. -/
def runGroups {V : Type} (sys : Sys V) (groups : List (Seg × List Patch)) :
    Sys V × List (Invocation V) :=
  match groups with
  | [] => (sys, [])
  | g :: rest =>
    let r1 := emitPlain sys (eventName g.1) g.2
    let r2 := if hasKeyedListenersS r1.1 (eventName g.1)
              then runKeyedEmits r1.1 (eventName g.1) (extractSecondKeysFromPatches g.2) g.2
              else (r1.1, [])
    let r3 := runGroups r2.1 rest
    (r3.1, r1.2 ++ r2.2 ++ r3.2)

/-- `ObservableStore.update` over the full system model
(`src/src/index.ts:105-147`): store the new state, group the patches, then
emit per group, dispatching to the listener tables; returns the ungrouped
patch list or the protocol error. -/
def updateSys {V : Type} (sys : Sys V) (newState : List (String × V))
    (patches : List Patch) :
    Sys V × List (Invocation V) × Except String (List Patch) :=
  let sys1 := { sys with state := newState }
  match groupPatchesByField patches with
  | .error e => (sys1, [], .error e)
  | .ok g =>
    let r := runGroups sys1 g.2
    (r.1, r.2, .ok patches)

/-- The plain-table entry registered by a value subscription. -/
def valueSubEntry (field : String) (cbId uid : Nat) : PlainEntry :=
  PlainEntry.mk (field ++ ":updated") false (PKind.valueSub cbId field) uid

/-- The keyed-table entry registered by a keyed value subscription. -/
def keyedValueSubEntry (field : String) (key : Seg) (cbId uid : Nat) : KeyedEntry :=
  KeyedEntry.mk (field ++ ":updated") (some key) false (PKind.valueSub cbId field) uid

/-- The handler `subscriptions.<field>` built by `createSubscribeHandlers`
(`src/src/index.ts:399-418`): invoke the callback immediately with
`get(field)`, register a non-one-shot plain listener on `"<field>:updated"`
that re-reads `get(field)`, and return that listener's unsubscribe identity.
`none` when the field has no handler (it was not a key of the initial
state). -/
def subscribeHandler {V : Type} (sys : Sys V) (field : String) (cbId : Nat) :
    Option (Sys V × Invocation V × Nat) :=
  if field ∈ sys.subsFields then
    some ({ sys with
        plainT := sys.plainT ++ [valueSubEntry field cbId sys.nextUid],
        nextUid := sys.nextUid + 1 },
      .value cbId (alookup sys.state field), sys.nextUid)
  else none

/-- The handler `keyedSubscriptions.<field>(key)` built by
`createKeyedSubscribeHandlers` (`src/src/index.ts:428-449`): invoke the
callback immediately with `get(field)`, register a keyed listener on
`"<field>:updated"` for the given key that re-reads `get(field)`, and return
its unsubscribe identity. -/
def keyedSubscribeHandler {V : Type} (sys : Sys V) (field : String) (key : Seg)
    (cbId : Nat) : Option (Sys V × Invocation V × Nat) :=
  if field ∈ sys.keyedSubsFields then
    some ({ sys with
        keyedT := sys.keyedT ++ [keyedValueSubEntry field key cbId sys.nextUid],
        nextUid := sys.nextUid + 1 },
      .value cbId (alookup sys.state field), sys.nextUid)
  else none

/-! ### Tracking a value subscription through dispatch -/

/-- The system holds exactly one listener with callback id `cbId`, namely the
value-subscription wrapper for `field` in the plain table. -/
def tracksValueSub {V : Type} (sys : Sys V) (field : String) (cbId uid : Nat) : Prop :=
  sys.plainT.filter (fun en => cbIdOf en.kind = cbId) = [valueSubEntry field cbId uid] ∧
  ∀ en ∈ sys.keyedT, cbIdOf en.kind ≠ cbId

theorem invokePlain_cbId {V : Type} (state : List (String × V)) (ps : List Patch)
    (k : PKind) : invCbId (invokePlain state ps k) = cbIdOf k := by
  cases k <;> rfl

theorem invokeKeyed_cbId {V : Type} (state : List (String × V)) (k : Seg)
    (ps : List Patch) (wild : Bool) (kd : PKind) :
    invCbId (invokeKeyed state k ps wild kd) = cbIdOf kd := by
  cases kd <;> cases wild <;> rfl

theorem emitPlain_tracked {V : Type} {sys : Sys V} {field : String} {cbId uid : Nat}
    (h : tracksValueSub sys field cbId uid) (ev : String) (ps : List Patch) :
    ((emitPlain sys ev ps).2.filter (fun inv => invCbId inv = cbId) =
      if field ++ ":updated" = ev
      then [Invocation.value cbId (alookup sys.state field)] else []) ∧
    tracksValueSub (emitPlain sys ev ps).1 field cbId uid ∧
    (emitPlain sys ev ps).1.state = sys.state ∧
    (emitPlain sys ev ps).1.keyedT = sys.keyedT := by
  have hcomp : ((fun inv => decide (invCbId inv = cbId)) ∘
      (fun en => invokePlain sys.state ps en.kind)) =
      fun en : PlainEntry => decide (cbIdOf en.kind = cbId) := by
    funext en
    simp [Function.comp, invokePlain_cbId]
  refine ⟨?_, ⟨?_, h.2⟩, rfl, rfl⟩
  · show ((sys.plainT.filter (fun en => en.event = ev)).map
        (fun en => invokePlain sys.state ps en.kind)).filter
        (fun inv => invCbId inv = cbId) = _
    rw [List.filter_map, hcomp, List.filter_comm, h.1]
    by_cases he : field ++ ":updated" = ev <;> simp [valueSubEntry, he, invokePlain]
  · show (sys.plainT.filter (fun en => ¬(en.event = ev ∧ en.once = true))).filter
        (fun en => cbIdOf en.kind = cbId) = _
    rw [List.filter_comm, h.1]
    simp [valueSubEntry]

theorem emitKeyedS_tracked {V : Type} {sys : Sys V} {field : String} {cbId uid : Nat}
    (h : tracksValueSub sys field cbId uid) (ev : String) (k : Seg) (ps : List Patch) :
    ((emitKeyedS sys ev k ps).2.filter (fun inv => invCbId inv = cbId) = []) ∧
    tracksValueSub (emitKeyedS sys ev k ps).1 field cbId uid ∧
    (emitKeyedS sys ev k ps).1.state = sys.state ∧
    (emitKeyedS sys ev k ps).1.plainT = sys.plainT := by
  have hmap : ∀ (q : KeyedEntry → Bool) (wild : Bool),
      ((sys.keyedT.filter q).map
        (fun en => invokeKeyed sys.state k ps wild en.kind)).filter
        (fun inv => invCbId inv = cbId) = [] := by
    intro q wild
    rw [List.filter_map]
    have : ((fun inv => decide (invCbId inv = cbId)) ∘
        (fun en => invokeKeyed sys.state k ps wild en.kind)) =
        fun en : KeyedEntry => decide (cbIdOf en.kind = cbId) := by
      funext en
      simp [Function.comp, invokeKeyed_cbId]
    rw [this]
    have hnil : (sys.keyedT.filter q).filter
        (fun en => cbIdOf en.kind = cbId) = [] := by
      rw [List.filter_eq_nil_iff]
      intro en hen
      simpa using h.2 en (List.mem_of_mem_filter hen)
    rw [hnil]
    rfl
  refine ⟨?_, ⟨h.1, ?_⟩, rfl, rfl⟩
  · show (((sys.keyedT.filter (fun en => en.event = ev ∧ en.sel = some k)).map
        (fun en => invokeKeyed sys.state k ps false en.kind)) ++
      ((sys.keyedT.filter (fun en => en.event = ev ∧ en.sel = none)).map
        (fun en => invokeKeyed sys.state k ps true en.kind))).filter
        (fun inv => invCbId inv = cbId) = []
    rw [List.filter_append, hmap, hmap]
    rfl
  · intro en hen
    exact h.2 en (List.mem_of_mem_filter hen)

theorem runKeyedEmits_tracked {V : Type} {field : String} {cbId uid : Nat}
    (ev : String) (ps : List Patch) :
    ∀ (ks : List Seg) (sys : Sys V), tracksValueSub sys field cbId uid →
    ((runKeyedEmits sys ev ks ps).2.filter (fun inv => invCbId inv = cbId) = []) ∧
    tracksValueSub (runKeyedEmits sys ev ks ps).1 field cbId uid ∧
    (runKeyedEmits sys ev ks ps).1.state = sys.state ∧
    (runKeyedEmits sys ev ks ps).1.plainT = sys.plainT := by
  intro ks
  induction ks with
  | nil => intro sys h; exact ⟨rfl, h, rfl, rfl⟩
  | cons k rest ih =>
    intro sys h
    obtain ⟨h1, h2, h3, h4⟩ := emitKeyedS_tracked h ev k ps
    obtain ⟨i1, i2, i3, i4⟩ := ih (emitKeyedS sys ev k ps).1 h2
    refine ⟨?_, i2, i3.trans h3, i4.trans h4⟩
    show ((emitKeyedS sys ev k ps).2 ++
        (runKeyedEmits (emitKeyedS sys ev k ps).1 ev rest ps).2).filter
        (fun inv => invCbId inv = cbId) = []
    rw [List.filter_append, h1, i1]
    rfl

theorem runGroups_tracked {V : Type} {field : String} {cbId uid : Nat} :
    ∀ (groups : List (Seg × List Patch)) (sys : Sys V),
      tracksValueSub sys field cbId uid →
    ((runGroups sys groups).2.filter (fun inv => invCbId inv = cbId) =
      (groups.filter (fun g => field ++ ":updated" = eventName g.1)).map
        (fun _ => Invocation.value cbId (alookup sys.state field))) ∧
    tracksValueSub (runGroups sys groups).1 field cbId uid ∧
    (runGroups sys groups).1.state = sys.state := by
  intro groups
  induction groups with
  | nil => intro sys h; exact ⟨rfl, h, rfl⟩
  | cons g rest ih =>
    intro sys h
    obtain ⟨h1, h2, h3, h4⟩ := emitPlain_tracked h (eventName g.1) g.2
    set sys1 := (emitPlain sys (eventName g.1) g.2).1 with hsys1
    have hstep2 : ((if hasKeyedListenersS sys1 (eventName g.1)
          then runKeyedEmits sys1 (eventName g.1) (extractSecondKeysFromPatches g.2) g.2
          else (sys1, [])).2.filter (fun inv => invCbId inv = cbId) = []) ∧
        tracksValueSub (if hasKeyedListenersS sys1 (eventName g.1)
          then runKeyedEmits sys1 (eventName g.1) (extractSecondKeysFromPatches g.2) g.2
          else (sys1, [])).1 field cbId uid ∧
        (if hasKeyedListenersS sys1 (eventName g.1)
          then runKeyedEmits sys1 (eventName g.1) (extractSecondKeysFromPatches g.2) g.2
          else (sys1, [])).1.state = sys1.state := by
      by_cases hk : hasKeyedListenersS sys1 (eventName g.1)
      · rw [if_pos hk]
        obtain ⟨j1, j2, j3, _⟩ :=
          runKeyedEmits_tracked (eventName g.1) g.2 (extractSecondKeysFromPatches g.2) sys1 h2
        exact ⟨j1, j2, j3⟩
      · rw [if_neg hk]
        exact ⟨rfl, h2, rfl⟩
    obtain ⟨k1, k2, k3⟩ := hstep2
    set sys2 := (if hasKeyedListenersS sys1 (eventName g.1)
          then runKeyedEmits sys1 (eventName g.1) (extractSecondKeysFromPatches g.2) g.2
          else (sys1, [])).1 with hsys2
    obtain ⟨i1, i2, i3⟩ := ih sys2 k2
    have hstate2 : sys2.state = sys.state := k3.trans h3
    refine ⟨?_, i2, i3.trans hstate2⟩
    show ((emitPlain sys (eventName g.1) g.2).2 ++
        (if hasKeyedListenersS sys1 (eventName g.1)
          then runKeyedEmits sys1 (eventName g.1) (extractSecondKeysFromPatches g.2) g.2
          else (sys1, [])).2 ++
        (runGroups sys2 rest).2).filter (fun inv => invCbId inv = cbId) = _
    rw [List.filter_append, List.filter_append, h1, k1, i1, hstate2]
    rw [List.filter_cons]
    by_cases hg : field ++ ":updated" = eventName g.1
    · rw [if_pos hg, if_pos (by simpa using hg)]
      rfl
    · rw [if_neg hg, if_neg (by simpa using hg)]
      rfl

theorem map_const_eq_of_length_one {α β : Type} (l : List α) (c : β)
    (h : l.length = 1) : l.map (fun _ => c) = [c] := by
  cases l with
  | nil => cases h
  | cons x t =>
    cases t with
    | nil => rfl
    | cons y t' => simp at h

theorem updateSys_tracked {V : Type} {sys : Sys V} {field : String} {cbId uid : Nat}
    (h : tracksValueSub sys field cbId uid) (newState : List (String × V))
    (patches : List Patch)
    (hstr : ∀ p ∈ patches, ∃ s, p.path.head? = some (Seg.str s)) :
    ((updateSys sys newState patches).2.1.filter (fun inv => invCbId inv = cbId) =
      if ∃ p ∈ patches, p.path.head? = some (Seg.str field)
      then [Invocation.value cbId (alookup newState field)] else []) ∧
    tracksValueSub (updateSys sys newState patches).1 field cbId uid ∧
    (updateSys sys newState patches).1.state = newState := by
  obtain ⟨r, hok⟩ := groupGo_ok patches [] [] (paths_nonempty_of_str hstr)
  obtain ⟨tl, all⟩ := r
  have hgb : groupPatchesByField patches = .ok (tl, all) := hok
  have hupd : updateSys sys newState patches =
      ((runGroups { sys with state := newState } all).1,
       (runGroups { sys with state := newState } all).2, .ok patches) := by
    simp only [updateSys, hgb]
  rw [hupd]
  have htr : tracksValueSub ({ sys with state := newState } : Sys V) field cbId uid := h
  obtain ⟨r1, r2, r3⟩ := runGroups_tracked all _ htr
  refine ⟨?_, r2, r3⟩
  rw [r1]
  have hlen : (all.filter (fun g => field ++ ":updated" = eventName g.1)).length =
      if ∃ p ∈ patches, p.path.head? = some (Seg.str field) then 1 else 0 := by
    rw [← List.countP_eq_length_filter]
    have hflip : all.countP (fun g => field ++ ":updated" = eventName g.1) =
        all.countP (fun g => eventName g.1 = eventName (Seg.str field)) := by
      apply List.countP_congr
      intro g _
      simp only [decide_eq_true_eq]
      exact ⟨fun hx => hx.symm, fun hx => hx.symm⟩
    rw [hflip, countP_groups_event hgb hstr field]
  by_cases hex : ∃ p ∈ patches, p.path.head? = some (Seg.str field)
  · rw [if_pos hex]
    rw [if_pos hex] at hlen
    exact map_const_eq_of_length_one _ _ hlen
  · rw [if_neg hex]
    rw [if_neg hex] at hlen
    rw [List.length_eq_zero.mp hlen]
    rfl

/-- Claim C7: for every field of the initial state, `subscriptions.field(cb)`
invokes `cb` synchronously exactly once at registration time with the current
`get(field)`; it registers a plain listener on `"<field>:updated"` and returns
that listener's unsubscribe identity; and on any subsequent `update`, `cb` is
invoked exactly once per emission of `"<field>:updated"` — once when the
field appears in the edit list, not at all otherwise — each time with the
then-current `get(field)`, never with the edit list. -/
theorem value_subscription_immediate_then_per_update {V : Type} (sys : Sys V)
    (field : String) (cbId : Nat) (hf : field ∈ sys.subsFields)
    (hfresh : (∀ en ∈ sys.plainT, cbIdOf en.kind ≠ cbId) ∧
      (∀ en ∈ sys.keyedT, cbIdOf en.kind ≠ cbId))
    (newState : List (String × V)) (patches : List Patch)
    (hstr : ∀ p ∈ patches, ∃ s, p.path.head? = some (Seg.str s)) :
    ∃ sys' : Sys V,
      subscribeHandler sys field cbId =
        some (sys', Invocation.value cbId (alookup sys.state field), sys.nextUid) ∧
      sys'.plainT = sys.plainT ++ [valueSubEntry field cbId sys.nextUid] ∧
      ((updateSys sys' newState patches).2.1.filter (fun inv => invCbId inv = cbId) =
        if ∃ p ∈ patches, p.path.head? = some (Seg.str field)
        then [Invocation.value cbId (alookup newState field)] else []) ∧
      tracksValueSub (updateSys sys' newState patches).1 field cbId sys.nextUid := by
  refine ⟨{ sys with
      plainT := sys.plainT ++ [valueSubEntry field cbId sys.nextUid],
      nextUid := sys.nextUid + 1 },
    by simp only [subscribeHandler, if_pos hf], rfl, ?_, ?_⟩
  all_goals {
    have htracked : tracksValueSub
        ({ sys with
            plainT := sys.plainT ++ [valueSubEntry field cbId sys.nextUid],
            nextUid := sys.nextUid + 1 } : Sys V) field cbId sys.nextUid := by
      constructor
      · show (sys.plainT ++ [valueSubEntry field cbId sys.nextUid]).filter
            (fun en => cbIdOf en.kind = cbId) = _
        rw [List.filter_append]
        have h0 : sys.plainT.filter (fun en => cbIdOf en.kind = cbId) = [] := by
          rw [List.filter_eq_nil_iff]
          intro en hen
          simpa using hfresh.1 en hen
        rw [h0]
        simp [valueSubEntry, cbIdOf]
      · exact hfresh.2
    have hres := updateSys_tracked htracked newState patches hstr
    first
      | exact hres.1
      | exact hres.2.1
  }

/-! ### The public operations and the fixed subscription maps -/

/-- A raw-listener plain entry. -/
def rawPlainEntry (ev : String) (once : Bool) (cbId uid : Nat) : PlainEntry :=
  PlainEntry.mk ev once (PKind.raw cbId) uid

/-- A raw-listener keyed entry. -/
def rawKeyedEntry (ev : String) (sel : Option Seg) (once : Bool) (cbId uid : Nat) :
    KeyedEntry :=
  KeyedEntry.mk ev sel once (PKind.raw cbId) uid

/-- One invocation of a public operation of the store
(`src/src/index.ts:105-386` and the two subscription maps). `update` carries
the producer's output; callbacks are identified by ids. -/
inductive StoreOp (V : Type) where
  | update (newState : List (String × V)) (patches : List Patch)
  | get (field : String)
  | getState
  | on (event : String) (cbId : Nat)
  | off (event : String) (cbId : Nat)
  | once (event : String) (cbId : Nat)
  | onKeyed (event : String) (sel : Option Seg) (cbId : Nat)
  | offKeyed (event : String) (sel : Option Seg) (cbId : Nat)
  | onceKeyed (event : String) (sel : Option Seg) (cbId : Nat)
  | subscribe (field : String) (cbId : Nat)
  | keyedSubscribe (field : String) (key : Seg) (cbId : Nat)

/-- The state transition of each public operation. `get`/`getState` are pure
reads; `on`/`once`/`onKeyed`/`onceKeyed` append a listener entry;
`off`/`offKeyed` remove the matching callback's entries; `update` dispatches;
the subscription handlers delegate to their builders. -/
def step {V : Type} (sys : Sys V) : StoreOp V → Sys V
  | .update newState patches => (updateSys sys newState patches).1
  | .get _ => sys
  | .getState => sys
  | .on ev cb =>
    { sys with
      plainT := sys.plainT ++ [rawPlainEntry ev false cb sys.nextUid],
      nextUid := sys.nextUid + 1 }
  | .off ev cb =>
    { sys with plainT :=
      (sys.plainT.filter (fun en => ¬(en.event = ev ∧ en.kind = PKind.raw cb))) }
  | .once ev cb =>
    { sys with
      plainT := sys.plainT ++ [rawPlainEntry ev true cb sys.nextUid],
      nextUid := sys.nextUid + 1 }
  | .onKeyed ev sel cb =>
    { sys with
      keyedT := sys.keyedT ++ [rawKeyedEntry ev sel false cb sys.nextUid],
      nextUid := sys.nextUid + 1 }
  | .offKeyed ev sel cb =>
    { sys with keyedT :=
      (sys.keyedT.filter
        (fun en => ¬(en.event = ev ∧ en.sel = sel ∧ en.kind = PKind.raw cb))) }
  | .onceKeyed ev sel cb =>
    { sys with
      keyedT := sys.keyedT ++ [rawKeyedEntry ev sel true cb sys.nextUid],
      nextUid := sys.nextUid + 1 }
  | .subscribe f cb =>
    match subscribeHandler sys f cb with
    | some r => r.1
    | none => sys
  | .keyedSubscribe f k cb =>
    match keyedSubscribeHandler sys f k cb with
    | some r => r.1
    | none => sys

theorem runKeyedEmits_subs {V : Type} (ev : String) (ps : List Patch) :
    ∀ (ks : List Seg) (sys : Sys V),
      (runKeyedEmits sys ev ks ps).1.subsFields = sys.subsFields ∧
      (runKeyedEmits sys ev ks ps).1.keyedSubsFields = sys.keyedSubsFields := by
  intro ks
  induction ks with
  | nil => intro sys; exact ⟨rfl, rfl⟩
  | cons k rest ih =>
    intro sys
    exact ⟨(ih _).1, (ih _).2⟩

theorem runGroups_subs {V : Type} :
    ∀ (groups : List (Seg × List Patch)) (sys : Sys V),
      (runGroups sys groups).1.subsFields = sys.subsFields ∧
      (runGroups sys groups).1.keyedSubsFields = sys.keyedSubsFields := by
  intro groups
  induction groups with
  | nil => intro sys; exact ⟨rfl, rfl⟩
  | cons g rest ih =>
    intro sys
    simp only [runGroups]
    constructor
    · refine ((ih _).1).trans ?_
      split
      · exact (runKeyedEmits_subs _ _ _ _).1.trans rfl
      · rfl
    · refine ((ih _).2).trans ?_
      split
      · exact (runKeyedEmits_subs _ _ _ _).2.trans rfl
      · rfl

theorem updateSys_subs {V : Type} (sys : Sys V) (newState : List (String × V))
    (patches : List Patch) :
    (updateSys sys newState patches).1.subsFields = sys.subsFields ∧
    (updateSys sys newState patches).1.keyedSubsFields = sys.keyedSubsFields := by
  simp only [updateSys]
  cases h : groupPatchesByField patches with
  | error e => exact ⟨rfl, rfl⟩
  | ok g => exact ⟨(runGroups_subs g.2 _).1, (runGroups_subs g.2 _).2⟩

theorem subscribeHandler_subs {V : Type} (sys : Sys V) (f : String) (cb : Nat)
    (r : Sys V × Invocation V × Nat) (h : subscribeHandler sys f cb = some r) :
    r.1.subsFields = sys.subsFields ∧ r.1.keyedSubsFields = sys.keyedSubsFields := by
  unfold subscribeHandler at h
  by_cases hf : f ∈ sys.subsFields
  · rw [if_pos hf] at h
    cases Option.some.inj h
    exact ⟨rfl, rfl⟩
  · rw [if_neg hf] at h
    cases h

theorem keyedSubscribeHandler_subs {V : Type} (sys : Sys V) (f : String) (k : Seg)
    (cb : Nat) (r : Sys V × Invocation V × Nat)
    (h : keyedSubscribeHandler sys f k cb = some r) :
    r.1.subsFields = sys.subsFields ∧ r.1.keyedSubsFields = sys.keyedSubsFields := by
  unfold keyedSubscribeHandler at h
  by_cases hf : f ∈ sys.keyedSubsFields
  · rw [if_pos hf] at h
    cases Option.some.inj h
    exact ⟨rfl, rfl⟩
  · rw [if_neg hf] at h
    cases h

theorem step_subs {V : Type} (sys : Sys V) (op : StoreOp V) :
    (step sys op).subsFields = sys.subsFields ∧
    (step sys op).keyedSubsFields = sys.keyedSubsFields := by
  cases op with
  | update newState patches => exact updateSys_subs sys newState patches
  | subscribe f cb =>
    simp only [step]
    cases h : subscribeHandler sys f cb with
    | none => exact ⟨rfl, rfl⟩
    | some r => exact subscribeHandler_subs sys f cb r h
  | keyedSubscribe f k cb =>
    simp only [step]
    cases h : keyedSubscribeHandler sys f k cb with
    | none => exact ⟨rfl, rfl⟩
    | some r => exact keyedSubscribeHandler_subs sys f k cb r h
  | _ => exact ⟨rfl, rfl⟩

theorem foldl_step_subs {V : Type} :
    ∀ (ops : List (StoreOp V)) (sys : Sys V),
      (ops.foldl step sys).subsFields = sys.subsFields ∧
      (ops.foldl step sys).keyedSubsFields = sys.keyedSubsFields := by
  intro ops
  induction ops with
  | nil => intro sys; exact ⟨rfl, rfl⟩
  | cons op rest ih =>
    intro sys
    rw [List.foldl_cons]
    exact ⟨(ih _).1.trans (step_subs sys op).1, (ih _).2.trans (step_subs sys op).2⟩

/-- Claim C10: the `subscriptions` and `keyedSubscriptions` maps are built
exactly once in the constructor from the keys of the initial state, and no
sequence of public operations ever adds, removes, or replaces an entry of
either map; in particular a field not among the initial keys — even one
introduced into the state by a later update — never gains a value-subscription
handler. -/
theorem subscription_maps_fixed_at_construction {V : Type}
    (init : List (String × V)) (ops : List (StoreOp V)) :
    ((ops.foldl step (mkStore init)).subsFields = init.map Prod.fst ∧
     (ops.foldl step (mkStore init)).keyedSubsFields = init.map Prod.fst) ∧
    (∀ f cb, f ∉ init.map Prod.fst →
      subscribeHandler (ops.foldl step (mkStore init)) f cb = none ∧
      ∀ k, keyedSubscribeHandler (ops.foldl step (mkStore init)) f k cb = none) := by
  have h := foldl_step_subs ops (mkStore init)
  refine ⟨⟨h.1, h.2⟩, ?_⟩
  intro f cb hf
  constructor
  · rw [subscribeHandler, if_neg (by rw [h.1]; exact hf)]
  · intro k
    rw [keyedSubscribeHandler, if_neg (by rw [h.2]; exact hf)]

/-- Concrete initial state for the C10 witness: one field `"a"`. -/
def c10Init : List (String × Nat) := [("a", 1)]

/-- Concrete operation sequence for the C10 witness: an update that introduces
a new top-level field `"b"`, then a plain listener registration on it. -/
def c10Ops : List (StoreOp Nat) :=
  [StoreOp.update [("a", 1), ("b", 2)] [Patch.mk [Seg.str "b"] PatchOp.add (some 2)],
   StoreOp.on "b:updated" 0]

/-- Witness for claim C10 at a concrete store and operation sequence. -/
theorem subscription_maps_fixed_at_construction_witness :
    (("b" : String) ∉ c10Init.map Prod.fst) ∧
    ((c10Ops.foldl step (mkStore c10Init)).subsFields = c10Init.map Prod.fst ∧
     (c10Ops.foldl step (mkStore c10Init)).keyedSubsFields = c10Init.map Prod.fst) ∧
    (subscribeHandler (c10Ops.foldl step (mkStore c10Init)) "b" 7 = none) := by
  have h := subscription_maps_fixed_at_construction c10Init c10Ops
  exact ⟨by decide, h.1, (h.2 "b" 7 (by decide)).1⟩

/-! ### Concrete fixtures and the witnesses at them -/

/-- One concrete edit: replace `users.u1.name`. -/
def samplePatch : Patch :=
  Patch.mk [Seg.str "users", Seg.str "u1", Seg.str "name"] PatchOp.replace (some 1)

/-- A producer that emits just `samplePatch`. -/
def sampleCreate : Nat → Nat × List Patch := fun _ => (1, [samplePatch])

/-- A producer that emits one empty-path edit (protocol violation). -/
def sampleBadCreate : Nat → Nat × List Patch :=
  fun _ => (2, [Patch.mk [] PatchOp.add none])

/-- A router oracle with keyed listeners on every event. -/
def sampleHasKeyed : String → Bool := fun _ => true

theorem sampleHstr : ∀ p ∈ (sampleCreate 0).2, ∃ s, p.path.head? = some (Seg.str s) := by
  intro p hp
  simp only [sampleCreate, List.mem_singleton] at hp
  subst hp
  exact ⟨"users", rfl⟩

/-- Witness for claim C1 at a concrete producer and field. -/
theorem update_emits_one_plain_event_per_changed_field_witness :
    (∀ p ∈ (sampleCreate 0).2, ∃ s, p.path.head? = some (Seg.str s)) ∧
    (((update sampleHasKeyed sampleCreate 0).2.1.countP
        (isPlainFor ("users" ++ ":updated")) =
      if ∃ p ∈ (sampleCreate 0).2, p.path.head? = some (Seg.str "users")
      then 1 else 0) ∧
    (∀ ps, Emission.plain ("users" ++ ":updated") ps ∈
        (update sampleHasKeyed sampleCreate 0).2.1 →
      ps = (sampleCreate 0).2.filter
        (fun p => p.path.head? = some (Seg.str "users"))) ∧
    ((sampleCreate 0).2 = [] → (update sampleHasKeyed sampleCreate 0).2.1 = [])) :=
  ⟨sampleHstr, update_emits_one_plain_event_per_changed_field sampleHasKeyed
    sampleCreate 0 sampleHstr "users"⟩

/-- Witness for claim C2 at a concrete producer, field and key. -/
theorem keyed_emission_iff_listener_and_matching_second_segment_witness :
    (∀ p ∈ (sampleCreate 0).2, ∃ s, p.path.head? = some (Seg.str s)) ∧
    (((∃ ps, Emission.keyed ("users" ++ ":updated") (Seg.str "u1") ps ∈
          (update sampleHasKeyed sampleCreate 0).2.1) ↔
        (sampleHasKeyed ("users" ++ ":updated") = true ∧
          ∃ p ∈ (sampleCreate 0).2, p.path.head? = some (Seg.str "users") ∧
            p.path[1]? = some (Seg.str "u1"))) ∧
      ((update sampleHasKeyed sampleCreate 0).2.1.countP
          (isKeyedFor ("users" ++ ":updated") (Seg.str "u1")) =
        if sampleHasKeyed ("users" ++ ":updated") = true ∧
            ∃ p ∈ (sampleCreate 0).2, p.path.head? = some (Seg.str "users") ∧
              p.path[1]? = some (Seg.str "u1")
          then 1 else 0) ∧
      (sampleHasKeyed ("users" ++ ":updated") = false →
        ∀ ps, Emission.keyed ("users" ++ ":updated") (Seg.str "u1") ps ∉
          (update sampleHasKeyed sampleCreate 0).2.1)) :=
  ⟨sampleHstr, keyed_emission_iff_listener_and_matching_second_segment sampleHasKeyed
    sampleCreate 0 sampleHstr "users" (Seg.str "u1")⟩

/-- Witness for claim C3 at concrete edit lists. -/
theorem grouping_rejects_empty_path_and_accepts_nonempty_witness :
    (groupPatchesByField [Patch.mk [] PatchOp.add none] = .error emptyPathError) ∧
    (∃ r, groupPatchesByField [samplePatch] = .ok r) :=
  ⟨(grouping_rejects_empty_path_and_accepts_nonempty
      [Patch.mk [] PatchOp.add none]).1 (by decide),
   (grouping_rejects_empty_path_and_accepts_nonempty [samplePatch]).2 (by decide)⟩

/-- Witness for claim C4 at a concrete keyed emission. -/
theorem keyed_emission_passes_full_field_group_witness :
    (Emission.keyed ("users" ++ ":updated") (Seg.str "u1") [samplePatch] ∈
      (update sampleHasKeyed sampleCreate 0).2.1) ∧
    (Emission.plain ("users" ++ ":updated") [samplePatch] ∈
        (update sampleHasKeyed sampleCreate 0).2.1 ∧
      ∃ F : String, ("users" ++ ":updated") = F ++ ":updated" ∧
        [samplePatch] = (sampleCreate 0).2.filter
          (fun p => p.path.head? = some (Seg.str F))) :=
  ⟨by decide, keyed_emission_passes_full_field_group sampleHasKeyed sampleCreate 0
    sampleHstr ("users" ++ ":updated") (Seg.str "u1") [samplePatch] (by decide)⟩

/-- Witness for claim C5 at a concrete plain emission. -/
theorem field_group_is_ordered_subsequence_of_edits_witness :
    (Emission.plain ("users" ++ ":updated") [samplePatch] ∈
      (update sampleHasKeyed sampleCreate 0).2.1) ∧
    ([samplePatch] = (sampleCreate 0).2.filter
        (fun p => p.path.head? = some (Seg.str "users")) ∧
      ([samplePatch] : List Patch).Sublist (sampleCreate 0).2) :=
  ⟨by decide, field_group_is_ordered_subsequence_of_edits sampleHasKeyed sampleCreate 0
    sampleHstr "users" [samplePatch] (by decide)⟩

/-- Witness for claim C8 at a concrete producer. -/
theorem update_returns_full_ungrouped_patch_list_witness :
    (∀ p ∈ (sampleCreate 0).2, p.path ≠ []) ∧
    ((update sampleHasKeyed sampleCreate 0).2.2 = .ok (sampleCreate 0).2) :=
  ⟨by decide, update_returns_full_ungrouped_patch_list sampleHasKeyed sampleCreate 0
    (by decide)⟩

/-- Witness for claim C9 at a concrete empty-path producer. -/
theorem empty_path_error_after_state_replacement_before_emission_witness :
    (∃ p ∈ (sampleBadCreate 0).2, p.path = []) ∧
    (update sampleHasKeyed sampleBadCreate 0 =
      ((sampleBadCreate 0).1, [], .error emptyPathError)) :=
  ⟨by decide, empty_path_error_after_state_replacement_before_emission sampleHasKeyed
    sampleBadCreate 0 (by decide)⟩

/-- Concrete system for the C7 witness. -/
def c7Sys : Sys Nat := mkStore [("count", 7)]

/-- Concrete producer output for the C7 witness. -/
def c7Patches : List Patch :=
  [Patch.mk [Seg.str "count", Seg.str "value"] PatchOp.replace (some 1)]

/-- Concrete new state for the C7 witness. -/
def c7New : List (String × Nat) := [("count", 8)]

theorem c7Hstr : ∀ p ∈ c7Patches, ∃ s, p.path.head? = some (Seg.str s) := by
  intro p hp
  simp only [c7Patches, List.mem_singleton] at hp
  subst hp
  exact ⟨"count", rfl⟩

/-- Witness for claim C7 at a concrete store, field and update. -/
theorem value_subscription_immediate_then_per_update_witness :
    (("count" : String) ∈ c7Sys.subsFields) ∧
    (∃ sys' : Sys Nat,
      subscribeHandler c7Sys "count" 5 =
        some (sys', Invocation.value 5 (alookup c7Sys.state "count"), c7Sys.nextUid) ∧
      sys'.plainT = c7Sys.plainT ++ [valueSubEntry "count" 5 c7Sys.nextUid] ∧
      ((updateSys sys' c7New c7Patches).2.1.filter (fun inv => invCbId inv = 5) =
        if ∃ p ∈ c7Patches, p.path.head? = some (Seg.str "count")
        then [Invocation.value 5 (alookup c7New "count")] else []) ∧
      tracksValueSub (updateSys sys' c7New c7Patches).1 "count" 5 c7Sys.nextUid) :=
  ⟨by decide, value_subscription_immediate_then_per_update c7Sys "count" 5 (by decide)
    ⟨fun en hen => by simp [c7Sys, mkStore] at hen,
     fun en hen => by simp [c7Sys, mkStore] at hen⟩ c7New c7Patches c7Hstr⟩

end ObserveStore
